import Mathlib

/-
Verification of the Markdown-to-Feishu rich-text converter
(pkg/channels/feishu/richtext.go).

The converter is embedded shallowly over `List Char` (Go strings at rune
granularity; all offsets in the source are byte offsets, which coincide with
character offsets at every slicing boundary used by the code).  Each Go regex
is translated into an explicit leftmost-first matching function following
Go's regexp semantics (leftmost starting position wins; at a given position,
greedy and lazy operators backtrack exactly as analysed per pattern).  The
`json.Marshal` encoder is modelled at the JSON-value level: the converter
builds a `Json` tree, and `buildFeishuContent` is parameterised by an
abstract fallible encoder standing for the downstream serializer, which is
the only possible failure source in the Go code.

Loops that consume a variable amount of input (`parseInlineElements`'s scan
loop and the block loop of `markdownToFeishuPost`) are written with an
explicit fuel argument set to `length + 1`; the development proves that this
fuel always suffices (every loop iteration strictly consumes input), so the
fuel version coincides with the Go loop.
-/

/-- Go `unicode.IsSpace` restricted to the ASCII range (the characters
`strings.TrimSpace` strips from ASCII text): space, tab, newline, vertical
tab, form feed, carriage return. -/
def isSpace (c : Char) : Bool :=
  c = ' ' || c = '\t' || c = '\n' || c = Char.ofNat 11 || c = Char.ofNat 12 || c = '\r'

/-- Go regexp character class `\s`, which is `[\t\n\f\r ]` (note: unlike
`unicode.IsSpace` it does not include vertical tab). -/
def isRegexSpace (c : Char) : Bool :=
  c = '\t' || c = '\n' || c = Char.ofNat 12 || c = '\r' || c = ' '

/-- Right-trim of trailing whitespace, second half of `strings.TrimSpace`. -/
def trimRight : List Char → List Char
  | [] => []
  | c :: rest =>
    let r := trimRight rest
    if r = [] then (if isSpace c then [] else [c]) else c :: r

/-- Go `strings.TrimSpace` on a line. -/
def trimSpace (l : List Char) : List Char :=
  trimRight (l.dropWhile isSpace)

/-- Go `strings.Split(text, "\n")`. -/
def splitLines : List Char → List (List Char)
  | [] => [[]]
  | c :: rest =>
    if c = '\n' then [] :: splitLines rest
    else
      match splitLines rest with
      | l :: ls => (c :: l) :: ls
      | [] => [[c]]

/-- Go `strings.Join(lines, "\n")`. -/
def joinNL (ls : List (List Char)) : List Char :=
  List.intercalate ['\n'] ls

/-- A single element of a Feishu post content line (`postElement` in the
source, an untyped map there; the three emitted shapes become a sum type).
`text s` is `{"tag":"text","text":s}`, `styledText s sty` is
`{"tag":"text","text":s,"style":sty}`, `link s h` is
`{"tag":"a","text":s,"href":h}`. -/
inductive PostElement
  | text (s : List Char)
  | styledText (s : List Char) (style : List String)
  | link (s href : List Char)
deriving DecidableEq

/-- The backtick character (U+0060). -/
def backtickChar : Char := Char.ofNat 96

/-- Match of regex `reMdLink`, pattern `\[([^\]]+)\]\(([^)]+)\)`, anchored at
the start of `s`.  Returns the match length and the two capture groups.  The
greedy classes `[^\]]+` and `[^)]+` cannot cross their closing delimiter, so
the match is determined by the first `]` and the first `)` after it. -/
def matchLinkAt (s : List Char) : Option (Nat × List (List Char)) :=
  match s with
  | c0 :: rest =>
    if c0 = '[' then
      let t := rest.takeWhile (fun ch => ch != ']')
      match rest.dropWhile (fun ch => ch != ']') with
      | _ :: c2 :: rest2 =>
        if c2 = '(' ∧ t ≠ [] then
          let h := rest2.takeWhile (fun ch => ch != ')')
          match rest2.dropWhile (fun ch => ch != ')') with
          | _ :: _ => if h ≠ [] then some (t.length + h.length + 4, [t, h]) else none
          | [] => none
        else none
      | _ => none
    else none
  | [] => none

/-- Match of regex `reInlineCode` (a backtick, one or more non-backtick
characters, a backtick), anchored at the start of `s`. -/
def matchCodeAt (s : List Char) : Option (Nat × List (List Char)) :=
  match s with
  | c0 :: rest =>
    if c0 = backtickChar then
      let t := rest.takeWhile (fun ch => ch != backtickChar)
      match rest.dropWhile (fun ch => ch != backtickChar) with
      | _ :: _ => if t ≠ [] then some (t.length + 2, [t]) else none
      | [] => none
    else none
  | [] => none

/-- Scan for the earliest adjacent pair `d d` in the list; returns the prefix
before it.  Fails upon reaching a newline first, because the lazy group
`(.+?)` of the delimiter regexes cannot match `\n`. -/
def scanClose2 (d : Char) : List Char → Option (List Char)
  | a :: b :: t =>
    if a = d ∧ b = d then some []
    else if a = '\n' then none
    else (scanClose2 d (b :: t)).map (fun p => a :: p)
  | _ => none

/-- Match of the doubled-delimiter regexes `\*\*(.+?)\*\*`, `__(.+?)__`,
`~~(.+?)~~`, anchored at the start of `s`.  The lazy group takes at least one
character and ends at the earliest following occurrence of the doubled
delimiter. -/
def matchPair2At (d : Char) (s : List Char) : Option (Nat × List (List Char)) :=
  match s with
  | a :: b :: c :: rest =>
    if a = d ∧ b = d ∧ c ≠ '\n' then
      match scanClose2 d rest with
      | some p => some (p.length + 5, [c :: p])
      | none => none
    else none
  | _ => none

/-- Leftmost match: Go `FindStringSubmatchIndex` tries each starting
position left to right and returns the first position where the anchored
match succeeds, together with that match. -/
def findAt {α : Type} (f : List Char → Option α) : List Char → Option (Nat × α)
  | [] => (f []).map fun a => (0, a)
  | c :: rest =>
    match f (c :: rest) with
    | some a => some (0, a)
    | none => (findAt f rest).map fun p => (p.1 + 1, p.2)

/-- The `match` record of `parseInlineElements`: start and end offsets of the
winning regex match in the remaining text, its kind tag, and its capture
groups. -/
structure MatchData where
  start : Nat
  stop : Nat
  typ : String
  groups : List (List Char)
deriving DecidableEq

/-- Build the candidate record for one pattern: leftmost match position plus
match length gives the `[start, stop)` span. -/
def candAt (typ : String) (f : List Char → Option (Nat × List (List Char)))
    (r : List Char) : Option MatchData :=
  (findAt f r).map fun pr => ⟨pr.1, pr.1 + pr.2.1, typ, pr.2.2⟩

/-- The five candidate patterns in the exact evaluation order of the source:
link, inline code, bold `**`, bold `__`, strikethrough `~~`. -/
def candidates (r : List Char) : List (Option MatchData) :=
  [candAt "link" matchLinkAt r,
   candAt "code" matchCodeAt r,
   candAt "bold" (matchPair2At '*') r,
   candAt "bold" (matchPair2At '_') r,
   candAt "strike" (matchPair2At '~') r]

/-- One step of the competition: the source replaces the current best match
exactly when there is none yet or the new match starts strictly earlier. -/
def upd : Option MatchData → Option MatchData → Option MatchData
  | none, c => c
  | some a, none => some a
  | some a, some b => if b.start < a.start then some b else some a

/-- Fold of `upd` over the candidate list, mirroring the straight-line
sequence of `if` statements in the source. -/
def pickEarliest : Option MatchData → List (Option MatchData) → Option MatchData
  | acc, [] => acc
  | acc, c :: cs => pickEarliest (upd acc c) cs

/-- The `earliest` computation of `parseInlineElements`. -/
def findEarliest (r : List Char) : Option MatchData :=
  pickEarliest none (candidates r)

/-- The `switch earliest.typ` emission of `parseInlineElements`. -/
def mkElem (m : MatchData) : PostElement :=
  if m.typ = "link" then PostElement.link (m.groups.getD 0 []) (m.groups.getD 1 [])
  else if m.typ = "code" then PostElement.styledText (m.groups.getD 0 []) ["code_block"]
  else if m.typ = "bold" then PostElement.styledText (m.groups.getD 0 []) ["bold"]
  else PostElement.styledText (m.groups.getD 0 []) ["lineThrough"]

/-- The `for remaining != ""` loop of `parseInlineElements`, with fuel.  Each
iteration either terminates or consumes `stop ≥ start + 3` characters, so
fuel `length + 1` always suffices (proved below). -/
def parseLoopFuel : Nat → List Char → List PostElement
  | 0, _ => []
  | fuel + 1, remaining =>
    if remaining = [] then []
    else
      match findEarliest remaining with
      | none => [PostElement.text remaining]
      | some m =>
        (if 0 < m.start then [PostElement.text (remaining.take m.start)] else [])
          ++ mkElem m :: parseLoopFuel fuel (remaining.drop m.stop)

/-- The list-marker preprocessing at the head of `parseInlineElements`: trim
surrounding whitespace, then replace a leading `"- "` or `"* "` by a bullet
glyph and a space.  The numbered-list test in the source is an empty branch
and therefore has no effect. -/
def preprocessLine (line : List Char) : List Char :=
  let l := trimSpace line
  if ("- ".toList.isPrefixOf l || "* ".toList.isPrefixOf l) then
    '•' :: ' ' :: l.drop 2
  else l

/-- `parseInlineElements` of the source: preprocessing followed by the
competition loop. -/
def parseInlineElements (line : List Char) : List PostElement :=
  let l := preprocessLine line
  parseLoopFuel (l.length + 1) l

/-- Match of `reMdHeading`, pattern `^#{1,6}\s+(.+)$`, against a whole line.
The greedy `#{1,6}` must consume the entire leading hash run (a shorter take
leaves a `#`, which `\s+` rejects), `\s+` consumes the maximal whitespace
run, backtracking one character only when nothing is left for `(.+)`, and
`(.+)$` requires a nonempty newline-free remainder reaching the end. -/
def headingMatch (line : List Char) : Option (List Char) :=
  let k := (line.takeWhile (fun c => c == '#')).length
  if 1 ≤ k ∧ k ≤ 6 then
    let rest := line.drop k
    let w := (rest.takeWhile isRegexSpace).length
    if w = 0 then none
    else if w < rest.length then
      let g := rest.drop w
      if '\n' ∈ g then none else some g
    else if 2 ≤ w then
      let g := rest.drop (w - 1)
      if '\n' ∈ g then none else some g
    else none
  else none

/-- The fenced-code start test of the block loop: `strings.HasPrefix` of the
trimmed line against a three-backtick marker. -/
def isFence (line : List Char) : Bool :=
  "```".toList.isPrefixOf (trimSpace line)

/-- The `for i < len(lines)` block loop of `markdownToFeishuPost`, with fuel.
Each iteration consumes at least one line, so fuel `length + 1` always
suffices.  A fence line opens a code block consuming every line up to (and
including, when present) the next fence line; then heading, blank and normal
lines each consume one line. -/
def buildContentFuel : Nat → List (List Char) → List (List PostElement)
  | 0, _ => []
  | _ + 1, [] => []
  | fuel + 1, line :: rest =>
    if isFence line then
      let codeLines := rest.takeWhile (fun l => !(isFence l))
      let restAfter := (rest.dropWhile (fun l => !(isFence l))).tail
      [PostElement.styledText (joinNL codeLines) ["code_block"]]
        :: buildContentFuel fuel restAfter
    else
      match headingMatch line with
      | some r => [PostElement.styledText r ["bold"]] :: buildContentFuel fuel rest
      | none =>
        if trimSpace line = [] then
          [PostElement.text []] :: buildContentFuel fuel rest
        else
          let elements := parseInlineElements line
          (if 0 < elements.length then [elements] else []) ++ buildContentFuel fuel rest

/-- The `contentLines` accumulated by the block loop of
`markdownToFeishuPost`. -/
def buildContent (lines : List (List Char)) : List (List PostElement) :=
  buildContentFuel (lines.length + 1) lines

/-- JSON values, the shape handed to `json.Marshal`. -/
inductive Json
  | str : List Char → Json
  | arr : List Json → Json
  | obj : List (List Char × Json) → Json

/-- A post element as the JSON object `json.Marshal` receives.  Go sorts map
keys alphabetically, hence the field orders `href, tag, text` and
`style, tag, text`. -/
def elementToJson : PostElement → Json
  | PostElement.text s =>
    Json.obj [("tag".toList, Json.str "text".toList), ("text".toList, Json.str s)]
  | PostElement.styledText s sty =>
    Json.obj [("style".toList, Json.arr (sty.map (fun st => Json.str st.toList))),
              ("tag".toList, Json.str "text".toList),
              ("text".toList, Json.str s)]
  | PostElement.link s h =>
    Json.obj [("href".toList, Json.str h),
              ("tag".toList, Json.str "a".toList),
              ("text".toList, Json.str s)]

/-- The `post` value built by `markdownToFeishuPost` and handed to
`json.Marshal`: a root object whose single key `zh_cn` maps to an object
whose single key `content` holds the document as an array of arrays of run
objects.  (The source sets no `title` key.) -/
def markdownToFeishuPost (text : List Char) : Json :=
  Json.obj [("zh_cn".toList,
    Json.obj [("content".toList,
      Json.arr ((buildContent (splitLines text)).map
        (fun l => Json.arr (l.map elementToJson))))])]

/-- `larkim.MsgTypePost`. -/
def msgTypePost : List Char := "post".toList

/-- `larkim.MsgTypeText`. -/
def msgTypeText : List Char := "text".toList

/-- The fallback value `map[string]string{"text": content}` handed to
`json.Marshal` on the fallback path. -/
def textFallbackJson (content : List Char) : Json :=
  Json.obj [("text".toList, Json.str content)]

/-- `buildFeishuContent`, parameterised by the downstream encoder
(`json.Marshal`), which is the only failure source in the Go code: if
encoding the post value succeeds the result is the post payload; otherwise
the fallback plain-text value is encoded; an error is returned only if even
that encoding fails. -/
def buildFeishuContent (marshal : Json → Option (List Char)) (content : List Char) :
    Option (List Char × List Char) :=
  match marshal (markdownToFeishuPost content) with
  | some postPayload => some (msgTypePost, postPayload)
  | none =>
    match marshal (textFallbackJson content) with
    | some payload => some (msgTypeText, payload)
    | none => none

/-- A concrete encoder that fails on the post value and succeeds on the
plain-text fallback value, used to exercise the fallback path. -/
def marshalProbe : Json → Option (List Char)
  | Json.obj [(_, Json.str c)] => some c
  | _ => none

/-- Invariant satisfied by every run emitted by the inline tokenizer:
nonempty text, and a style list that is exactly one of the three singleton
style lists the source ever constructs. -/
def inlineRunOK : PostElement → Prop
  | PostElement.text s => s ≠ []
  | PostElement.styledText s sty =>
      s ≠ [] ∧ (sty = ["code_block"] ∨ sty = ["bold"] ∨ sty = ["lineThrough"])
  | PostElement.link t _ => t ≠ []

/-- Invariant satisfied by every line of the assembled document: it is a
blank-line run, a (possibly empty) code-block run, or a line all of whose
runs satisfy `inlineRunOK` (this includes heading lines). -/
def lineOK (l : List PostElement) : Prop :=
  l = [PostElement.text []]
  ∨ (∃ s, l = [PostElement.styledText s ["code_block"]])
  ∨ ∀ e ∈ l, inlineRunOK e

/-- The part of claim C2 that asserts an empty `title` field inside the
locale object of the post value. -/
def titleFieldPresent (text : List Char) : Prop :=
  ∃ fields, markdownToFeishuPost text = Json.obj [("zh_cn".toList, Json.obj fields)]
    ∧ ("title".toList, Json.str []) ∈ fields

theorem takeWhile_length_le {α : Type} (p : α → Bool) : ∀ l : List α,
    (l.takeWhile p).length ≤ l.length
  | [] => by simp
  | a :: t => by
    cases hp : p a
    · simp [List.takeWhile_cons, hp]
    · simpa [List.takeWhile_cons, hp, Nat.succ_le_succ_iff] using takeWhile_length_le p t

theorem takeWhile_all {α : Type} (p : α → Bool) : ∀ l : List α,
    (∀ a ∈ l, p a = true) → l.takeWhile p = l
  | [], _ => rfl
  | a :: t, h => by
    have ha : p a = true := h a (List.mem_cons_self a t)
    simp [List.takeWhile_cons, ha, takeWhile_all p t (fun b hb => h b (List.mem_cons_of_mem a hb))]

theorem dropWhile_all {α : Type} (p : α → Bool) : ∀ l : List α,
    (∀ a ∈ l, p a = true) → l.dropWhile p = []
  | [], _ => rfl
  | a :: t, h => by
    have ha : p a = true := h a (List.mem_cons_self a t)
    simp [List.dropWhile_cons, ha, dropWhile_all p t (fun b hb => h b (List.mem_cons_of_mem a hb))]

theorem getD_some_mem {α : Type} : ∀ (l : List (Option α)) (i : Nat) (x : α),
    l.getD i none = some x → some x ∈ l
  | [], i, x, h => by simp [List.getD] at h
  | a :: t, 0, x, h => by
    rw [List.getD_cons_zero] at h
    exact h ▸ List.mem_cons_self a t
  | a :: t, i + 1, x, h => by
    rw [List.getD_cons_succ] at h
    exact List.mem_cons_of_mem a (getD_some_mem t i x h)

theorem trimRight_cons (c : Char) (t : List Char) (hc : isSpace c = false) :
    trimRight (c :: t) = c :: trimRight t := by
  simp only [trimRight]
  by_cases h : trimRight t = [] <;> simp [h, hc]

theorem trimSpace_cons (c : Char) (t : List Char) (hc : isSpace c = false) :
    trimSpace (c :: t) = c :: trimRight t := by
  simp only [trimSpace, List.dropWhile_cons, hc]
  exact trimRight_cons c t hc

theorem upd_eq_or (acc c : Option MatchData) (m : MatchData) (h : upd acc c = some m) :
    acc = some m ∨ c = some m := by
  cases acc with
  | none => exact Or.inr h
  | some a =>
    cases c with
    | none => exact Or.inl h
    | some b =>
      by_cases hb : b.start < a.start
      · right
        simp only [upd, if_pos hb] at h
        exact h
      · left
        simp only [upd, if_neg hb] at h
        exact h

theorem upd_some (a : MatchData) (c : Option MatchData) :
    ∃ y, upd (some a) c = some y ∧ y.start ≤ a.start ∧ ∀ b, c = some b → y.start ≤ b.start := by
  cases c with
  | none => exact ⟨a, rfl, le_refl _, fun b hb => by cases hb⟩
  | some b =>
    by_cases hb : b.start < a.start
    · exact ⟨b, by simp [upd, hb], le_of_lt hb,
        fun b2 hb2 => by injection hb2 with h2; subst h2; exact le_refl _⟩
    · exact ⟨a, by simp [upd, hb], le_refl _,
        fun b2 hb2 => by injection hb2 with h2; subst h2; omega⟩

theorem upd_some_right (acc : Option MatchData) (x : MatchData) :
    ∃ y, upd acc (some x) = some y ∧ y.start ≤ x.start := by
  cases acc with
  | none => exact ⟨x, rfl, le_refl _⟩
  | some a =>
    by_cases hb : x.start < a.start
    · exact ⟨x, by simp [upd, hb], le_refl _⟩
    · exact ⟨a, by simp [upd, hb], by omega⟩

theorem pickEarliest_mem : ∀ (cs : List (Option MatchData)) (acc : Option MatchData) (m : MatchData),
    pickEarliest acc cs = some m → acc = some m ∨ some m ∈ cs := by
  intro cs
  induction cs with
  | nil => exact fun acc m h => Or.inl h
  | cons c cs ih =>
    intro acc m h
    rcases ih (upd acc c) m h with h0 | h0
    · rcases upd_eq_or acc c m h0 with h1 | h1
      · exact Or.inl h1
      · exact Or.inr (h1 ▸ List.mem_cons_self c cs)
    · exact Or.inr (List.mem_cons_of_mem c h0)

theorem pickEarliest_spec :
    ∀ (cs : List (Option MatchData)) (acc : Option MatchData) (m : MatchData),
    pickEarliest acc cs = some m →
    (acc = some m ∧ ∀ j x, cs.getD j none = some x → m.start ≤ x.start)
    ∨ (∃ i, i < cs.length ∧ cs.getD i none = some m
        ∧ (∀ a, acc = some a → m.start < a.start)
        ∧ (∀ j x, j < i → cs.getD j none = some x → m.start < x.start)
        ∧ (∀ j x, cs.getD j none = some x → m.start ≤ x.start)) := by
  intro cs
  induction cs with
  | nil =>
    intro acc m h
    left
    refine ⟨h, fun j x hx => ?_⟩
    simp [List.getD] at hx
  | cons c cs ih =>
    intro acc m h
    rcases ih (upd acc c) m h with ⟨hacc, hmin⟩ | ⟨i, hilen, hi, haccs, hstrict, hall⟩
    · cases acc with
      | none =>
        have hc : c = some m := hacc
        right
        refine ⟨0, by simp, by simp [hc], ?_, ?_, ?_⟩
        · intro a ha; cases ha
        · intro j x hj hx; omega
        · intro j x hx
          cases j with
          | zero =>
            rw [List.getD_cons_zero, hc] at hx
            injection hx with hx; subst hx; exact le_refl _
          | succ kk =>
            rw [List.getD_cons_succ] at hx
            exact hmin kk x hx
      | some a =>
        cases c with
        | none =>
          have ham : a = m := by simpa [upd] using hacc
          subst ham
          left
          refine ⟨rfl, fun j x hx => ?_⟩
          cases j with
          | zero => rw [List.getD_cons_zero] at hx; cases hx
          | succ kk => rw [List.getD_cons_succ] at hx; exact hmin kk x hx
        | some b =>
          by_cases hb : b.start < a.start
          · have hbm : b = m := by simpa [upd, hb] using hacc
            subst hbm
            right
            refine ⟨0, by simp, by simp, ?_, ?_, ?_⟩
            · intro a2 ha2; injection ha2 with ha2; subst ha2; exact hb
            · intro j x hj hx; omega
            · intro j x hx
              cases j with
              | zero =>
                rw [List.getD_cons_zero] at hx
                injection hx with hx; subst hx; exact le_refl _
              | succ kk => rw [List.getD_cons_succ] at hx; exact hmin kk x hx
          · have ham : a = m := by simpa [upd, hb] using hacc
            subst ham
            left
            refine ⟨rfl, fun j x hx => ?_⟩
            cases j with
            | zero =>
              rw [List.getD_cons_zero] at hx
              injection hx with hx; subst hx; omega
            | succ kk => rw [List.getD_cons_succ] at hx; exact hmin kk x hx
    · right
      refine ⟨i + 1, by simpa using Nat.succ_lt_succ hilen,
        by simpa [List.getD_cons_succ] using hi, ?_, ?_, ?_⟩
      · intro a ha
        subst ha
        obtain ⟨y, hu, hle, _⟩ := upd_some a c
        have := haccs y hu
        omega
      · intro j x hj hx
        cases j with
        | zero =>
          rw [List.getD_cons_zero] at hx
          subst hx
          obtain ⟨y, hu, hle⟩ := upd_some_right acc x
          have := haccs y hu
          omega
        | succ kk =>
          rw [List.getD_cons_succ] at hx
          exact hstrict kk x (Nat.lt_of_succ_lt_succ hj) hx
      · intro j x hx
        cases j with
        | zero =>
          rw [List.getD_cons_zero] at hx
          subst hx
          obtain ⟨y, hu, hle⟩ := upd_some_right acc x
          have := haccs y hu
          omega
        | succ kk =>
          rw [List.getD_cons_succ] at hx
          exact hall kk x hx

theorem findAt_sound {α : Type} (f : List Char → Option α) :
    ∀ (r : List Char) (i : Nat) (a : α), findAt f r = some (i, a) →
      f (r.drop i) = some a ∧ i ≤ r.length := by
  intro r
  induction r with
  | nil =>
    intro i a h
    simp only [findAt] at h
    cases hf : f [] with
    | none => rw [hf] at h; cases h
    | some b =>
      rw [hf] at h
      injection h with h
      injection h with h1 h2
      subst h1; subst h2
      exact ⟨hf, Nat.le_refl 0⟩
  | cons c rest ih =>
    intro i a h
    simp only [findAt] at h
    cases hf : f (c :: rest) with
    | some b =>
      rw [hf] at h
      injection h with h
      injection h with h1 h2
      subst h1; subst h2
      exact ⟨hf, Nat.zero_le _⟩
    | none =>
      rw [hf] at h
      cases hfa : findAt f rest with
      | none => rw [hfa] at h; cases h
      | some pr =>
        rw [hfa] at h
        simp only [Option.map_some] at h
        injection h with h
        injection h with h1 h2
        obtain ⟨j, b⟩ := pr
        have hrec := ih j b hfa
        subst h1; subst h2
        refine ⟨?_, ?_⟩
        · rw [List.drop_succ_cons]
          exact hrec.1
        · simpa [List.length_cons] using Nat.succ_le_succ hrec.2

theorem scanClose2_sound (d : Char) : ∀ (n : Nat) (t : List Char), t.length ≤ n →
    ∀ p, scanClose2 d t = some p → p.length + 2 ≤ t.length := by
  intro n
  induction n with
  | zero =>
    intro t ht p hp
    cases t with
    | nil => simp [scanClose2] at hp
    | cons a t2 => simp at ht
  | succ k ih =>
    intro t ht p hp
    match t with
    | [] => simp [scanClose2] at hp
    | [a] => simp [scanClose2] at hp
    | a :: b :: t2 =>
      simp only [scanClose2] at hp
      split at hp
      · injection hp with hp
        subst hp
        simp [List.length_cons]
      · split at hp
        · cases hp
        · cases hsc : scanClose2 d (b :: t2) with
          | none => rw [hsc] at hp; cases hp
          | some p2 =>
            rw [hsc] at hp
            injection hp with hp
            subst hp
            have hlen : (b :: t2).length ≤ k := by
              simp only [List.length_cons] at ht ⊢
              omega
            have := ih (b :: t2) hlen p2 hsc
            simp only [List.length_cons] at this ⊢
            omega

theorem scanClose2_len (d : Char) (t p : List Char) (h : scanClose2 d t = some p) :
    p.length + 2 ≤ t.length :=
  scanClose2_sound d t.length t (Nat.le_refl _) p h

theorem matchLinkAt_sound (s : List Char) (len : Nat) (gs : List (List Char))
    (h : matchLinkAt s = some (len, gs)) :
    3 ≤ len ∧ len ≤ s.length ∧ ∃ t u, gs = [t, u] ∧ t ≠ [] ∧ u ≠ [] := by
  cases s with
  | nil => simp [matchLinkAt] at h
  | cons c0 rest =>
    simp only [matchLinkAt] at h
    split at h
    case isFalse => cases h
    case isTrue hc0 =>
      split at h
      · rename_i d1 c2 rest2 hdw
        split at h
        case isFalse => cases h
        case isTrue hcond =>
          split at h
          · rename_i e0 tail2 hdw2
            split at h
            case isFalse => cases h
            case isTrue hne =>
              injection h with h
              injection h with h1 h2
              subst h1
              have e1 : rest.takeWhile (fun ch => ch != ']') ++ (d1 :: c2 :: rest2) = rest := by
                rw [← hdw]
                exact List.takeWhile_append_dropWhile _ _
              have e2 : rest2.takeWhile (fun ch => ch != ')') ++ (e0 :: tail2) = rest2 := by
                rw [← hdw2]
                exact List.takeWhile_append_dropWhile _ _
              have l1 := congrArg List.length e1
              have l2 := congrArg List.length e2
              simp only [List.length_append, List.length_cons] at l1 l2
              refine ⟨by omega, ?_, ⟨_, _, h2.symm, hcond.2, hne⟩⟩
              simp only [List.length_cons]
              omega
          · cases h
      · cases h

theorem matchCodeAt_sound (s : List Char) (len : Nat) (gs : List (List Char))
    (h : matchCodeAt s = some (len, gs)) :
    3 ≤ len ∧ len ≤ s.length ∧ ∃ t, gs = [t] ∧ t ≠ [] := by
  cases s with
  | nil => simp [matchCodeAt] at h
  | cons c0 rest =>
    simp only [matchCodeAt] at h
    split at h
    case isFalse => cases h
    case isTrue hc0 =>
      split at h
      · rename_i d1 tail1 hdw
        split at h
        case isFalse => cases h
        case isTrue hne =>
          injection h with h
          injection h with h1 h2
          subst h1
          have e1 : rest.takeWhile (fun ch => ch != backtickChar) ++ (d1 :: tail1) = rest := by
            rw [← hdw]
            exact List.takeWhile_append_dropWhile _ _
          have l1 := congrArg List.length e1
          simp only [List.length_append, List.length_cons] at l1
          have hlt : 0 < (rest.takeWhile (fun ch => ch != backtickChar)).length :=
            List.length_pos.mpr hne
          refine ⟨by omega, ?_, ⟨_, h2.symm, hne⟩⟩
          simp only [List.length_cons]
          omega
      · cases h

theorem matchPair2At_sound (d : Char) (s : List Char) (len : Nat) (gs : List (List Char))
    (h : matchPair2At d s = some (len, gs)) :
    3 ≤ len ∧ len ≤ s.length ∧ ∃ g, gs = [g] ∧ g ≠ [] := by
  match s with
  | [] => simp [matchPair2At] at h
  | [a] => simp [matchPair2At] at h
  | [a, b] => simp [matchPair2At] at h
  | a :: b :: c :: rest =>
    simp only [matchPair2At] at h
    split at h
    case isFalse => cases h
    case isTrue hcond =>
      cases hsc : scanClose2 d rest with
      | none => rw [hsc] at h; cases h
      | some p =>
        rw [hsc] at h
        injection h with h
        injection h with h1 h2
        subst h1
        have := scanClose2_len d rest p hsc
        refine ⟨by omega, ?_, ⟨_, h2.symm, by simp⟩⟩
        simp only [List.length_cons]
        omega

theorem candAt_sound (typ : String) (f : List Char → Option (Nat × List (List Char)))
    (P : List (List Char) → Prop)
    (hf : ∀ s len gs, f s = some (len, gs) → 3 ≤ len ∧ len ≤ s.length ∧ P gs)
    (r : List Char) (m : MatchData) (h : candAt typ f r = some m) :
    m.typ = typ ∧ m.start + 3 ≤ m.stop ∧ m.stop ≤ r.length ∧ P m.groups := by
  simp only [candAt] at h
  cases hfa : findAt f r with
  | none => rw [hfa] at h; cases h
  | some pr =>
    obtain ⟨i, ln, gs⟩ := pr
    rw [hfa] at h
    injection h with h
    subst h
    have hs := findAt_sound f r i (ln, gs) hfa
    have hp := hf (r.drop i) ln gs hs.1
    have hd : (r.drop i).length = r.length - i := List.length_drop _ _
    refine ⟨rfl, ?_, ?_, hp.2.2⟩
    · simp only []
      omega
    · simp only []
      omega

theorem findEarliest_sound (r : List Char) (m : MatchData) (h : findEarliest r = some m) :
    m.start + 3 ≤ m.stop ∧ m.stop ≤ r.length ∧ inlineRunOK (mkElem m) := by
  have hmem : some m ∈ candidates r := by
    rcases pickEarliest_mem (candidates r) none m h with h0 | h0
    · cases h0
    · exact h0
  simp only [candidates, List.mem_cons, List.not_mem_nil, or_false] at hmem
  rcases hmem with h0 | h0 | h0 | h0 | h0
  · obtain ⟨htyp, h3, hlen, t, u, hgs, ht, hu⟩ :=
      candAt_sound "link" matchLinkAt _ matchLinkAt_sound r m h0.symm
    refine ⟨h3, hlen, ?_⟩
    simp [mkElem, htyp, hgs, inlineRunOK, ht]
  · obtain ⟨htyp, h3, hlen, t, hgs, ht⟩ :=
      candAt_sound "code" matchCodeAt _ matchCodeAt_sound r m h0.symm
    refine ⟨h3, hlen, ?_⟩
    simp [mkElem, htyp, hgs, inlineRunOK, ht]
  · obtain ⟨htyp, h3, hlen, t, hgs, ht⟩ :=
      candAt_sound "bold" (matchPair2At '*') _ (matchPair2At_sound '*') r m h0.symm
    refine ⟨h3, hlen, ?_⟩
    simp [mkElem, htyp, hgs, inlineRunOK, ht]
  · obtain ⟨htyp, h3, hlen, t, hgs, ht⟩ :=
      candAt_sound "bold" (matchPair2At '_') _ (matchPair2At_sound '_') r m h0.symm
    refine ⟨h3, hlen, ?_⟩
    simp [mkElem, htyp, hgs, inlineRunOK, ht]
  · obtain ⟨htyp, h3, hlen, t, hgs, ht⟩ :=
      candAt_sound "strike" (matchPair2At '~') _ (matchPair2At_sound '~') r m h0.symm
    refine ⟨h3, hlen, ?_⟩
    simp [mkElem, htyp, hgs, inlineRunOK, ht]

theorem parseLoopFuel_runs : ∀ (fuel : Nat) (r : List Char) (e : PostElement),
    e ∈ parseLoopFuel fuel r → inlineRunOK e := by
  intro fuel
  induction fuel with
  | zero => intro r e he; simp [parseLoopFuel] at he
  | succ k ih =>
    intro r e he
    simp only [parseLoopFuel] at he
    split at he
    case isTrue => simp at he
    case isFalse hr =>
      cases hfe : findEarliest r with
      | none =>
        rw [hfe] at he
        simp only [List.mem_singleton] at he
        subst he
        exact hr
      | some m =>
        rw [hfe] at he
        have hm := findEarliest_sound r m hfe
        rcases List.mem_append.mp he with hpre | he2
        · by_cases hst : 0 < m.start
          · rw [if_pos hst] at hpre
            simp only [List.mem_singleton] at hpre
            subst hpre
            show r.take m.start ≠ []
            have hlt : (r.take m.start).length = min m.start r.length := List.length_take _ _
            have hrlen : 0 < r.length := List.length_pos.mpr hr
            apply List.ne_nil_of_length_pos
            omega
          · rw [if_neg hst] at hpre
            simp at hpre
        · rcases List.mem_cons.mp he2 with he3 | he3
          · subst he3
            exact hm.2.2
          · exact ih _ _ he3

theorem parseLoopFuel_cons_ne_nil (k : Nat) (r : List Char) (hr : r ≠ []) :
    parseLoopFuel (k + 1) r ≠ [] := by
  simp only [parseLoopFuel]
  rw [if_neg hr]
  cases hfe : findEarliest r with
  | none => simp
  | some m =>
    intro hcontra
    rcases List.append_eq_nil.mp hcontra with ⟨_, h2⟩
    cases h2

theorem parseLoopFuel_stable : ∀ (n : Nat) (r : List Char), r.length ≤ n →
    ∀ f1 f2, r.length < f1 → r.length < f2 → parseLoopFuel f1 r = parseLoopFuel f2 r := by
  intro n
  induction n with
  | zero =>
    intro r hr f1 f2 h1 h2
    have hnil : r = [] := List.eq_nil_of_length_eq_zero (by omega)
    subst hnil
    cases f1 with
    | zero => omega
    | succ a =>
      cases f2 with
      | zero => omega
      | succ b => simp [parseLoopFuel]
  | succ k ih =>
    intro r hr f1 f2 h1 h2
    cases f1 with
    | zero => omega
    | succ a =>
      cases f2 with
      | zero => omega
      | succ b =>
        simp only [parseLoopFuel]
        by_cases hre : r = []
        · simp [hre]
        · rw [if_neg hre, if_neg hre]
          cases hfe : findEarliest r with
          | none => rfl
          | some m =>
            have hm := findEarliest_sound r m hfe
            have hd : (r.drop m.stop).length = r.length - m.stop := List.length_drop _ _
            have hrec : parseLoopFuel a (r.drop m.stop) = parseLoopFuel b (r.drop m.stop) :=
              ih _ (by omega) a b (by omega) (by omega)
            show (if 0 < m.start then [PostElement.text (r.take m.start)] else [])
                ++ mkElem m :: parseLoopFuel a (r.drop m.stop)
              = (if 0 < m.start then [PostElement.text (r.take m.start)] else [])
                ++ mkElem m :: parseLoopFuel b (r.drop m.stop)
            rw [hrec]

theorem headingMatch_ne_nil (line : List Char) (r : List Char)
    (h : headingMatch line = some r) : r ≠ [] := by
  simp only [headingMatch] at h
  split at h
  case isFalse => cases h
  case isTrue hk =>
    split at h
    case isTrue => cases h
    case isFalse hw =>
      have hwle : ((line.drop (line.takeWhile (fun c => c == '#')).length).takeWhile
          isRegexSpace).length ≤ (line.drop (line.takeWhile (fun c => c == '#')).length).length :=
        takeWhile_length_le _ _
      split at h
      case isTrue hlt =>
        split at h
        case isTrue => cases h
        case isFalse =>
          injection h with h
          subst h
          apply List.ne_nil_of_length_pos
          have := List.length_drop
            ((line.drop (line.takeWhile (fun c => c == '#')).length).takeWhile isRegexSpace).length
            (line.drop (line.takeWhile (fun c => c == '#')).length)
          omega
      case isFalse hge =>
        split at h
        case isFalse => cases h
        case isTrue h2w =>
          split at h
          case isTrue => cases h
          case isFalse =>
            injection h with h
            subst h
            apply List.ne_nil_of_length_pos
            have := List.length_drop
              (((line.drop (line.takeWhile (fun c => c == '#')).length).takeWhile
                isRegexSpace).length - 1)
              (line.drop (line.takeWhile (fun c => c == '#')).length)
            omega

theorem headingMatch_head : ∀ (line : List Char) (r : List Char),
    headingMatch line = some r → ∃ t, line = '#' :: t := by
  intro line r h
  cases line with
  | nil => simp [headingMatch] at h
  | cons c t =>
    by_cases hc : c = '#'
    · exact ⟨t, by rw [hc]⟩
    · exfalso
      have hbeq : (c == '#') = false := by
        simpa using hc
      simp [headingMatch, List.takeWhile_cons, hbeq] at h

theorem headingMatch_not_fence (line : List Char) (r : List Char)
    (h : headingMatch line = some r) : isFence line = false := by
  obtain ⟨t, rfl⟩ := headingMatch_head line r h
  have hts : trimSpace ('#' :: t) = '#' :: trimRight t :=
    trimSpace_cons '#' t (by decide)
  simp [isFence, hts, List.isPrefixOf]

theorem headingMatch_not_blank (line : List Char) (r : List Char)
    (h : headingMatch line = some r) : trimSpace line ≠ [] := by
  obtain ⟨t, rfl⟩ := headingMatch_head line r h
  rw [trimSpace_cons '#' t (by decide)]
  simp

theorem buildContentFuel_nil : ∀ f, buildContentFuel f [] = [] := by
  intro f
  cases f <;> rfl

theorem buildContentFuel_lineOK : ∀ (fuel : Nat) (lines : List (List Char))
    (l : List PostElement), l ∈ buildContentFuel fuel lines → lineOK l := by
  intro fuel
  induction fuel with
  | zero => intro lines l h; simp [buildContentFuel] at h
  | succ k ih =>
    intro lines l h
    match lines with
    | [] => simp [buildContentFuel] at h
    | line :: rest =>
      simp only [buildContentFuel] at h
      split at h
      · rcases List.mem_cons.mp h with heq | h2
        · subst heq
          exact Or.inr (Or.inl ⟨_, rfl⟩)
        · exact ih _ _ h2
      · split at h
        · rename_i r hhm
          rcases List.mem_cons.mp h with heq | h2
          · subst heq
            refine Or.inr (Or.inr ?_)
            intro e he
            rcases List.mem_singleton.mp he with rfl
            exact ⟨headingMatch_ne_nil line r hhm, Or.inr (Or.inl rfl)⟩
          · exact ih _ _ h2
        · split at h
          · rcases List.mem_cons.mp h with heq | h2
            · subst heq
              exact Or.inl rfl
            · exact ih _ _ h2
          · rcases List.mem_append.mp h with h2 | h2
            · split at h2
              · rcases List.mem_singleton.mp h2 with rfl
                refine Or.inr (Or.inr ?_)
                intro e he
                exact parseLoopFuel_runs _ _ e he
              · simp at h2
            · exact ih _ _ h2

theorem buildContentFuel_fence_step (fuel : Nat) (line : List Char) (rest : List (List Char))
    (hf : isFence line = true) :
    buildContentFuel (fuel + 1) (line :: rest)
      = [PostElement.styledText (joinNL (rest.takeWhile (fun l => !(isFence l)))) ["code_block"]]
          :: buildContentFuel fuel ((rest.dropWhile (fun l => !(isFence l))).tail) := by
  simp only [buildContentFuel]
  rw [if_pos hf]

theorem buildContentFuel_heading_step (fuel : Nat) (line r : List Char)
    (rest : List (List Char)) (hhm : headingMatch line = some r) (hnf : isFence line = false) :
    buildContentFuel (fuel + 1) (line :: rest)
      = [PostElement.styledText r ["bold"]] :: buildContentFuel fuel rest := by
  simp only [buildContentFuel]
  rw [if_neg (by simp [hnf])]
  rw [hhm]

theorem buildContentFuel_blank_step (fuel : Nat) (line : List Char) (rest : List (List Char))
    (hnf : isFence line = false) (hhm : headingMatch line = none) (hb : trimSpace line = []) :
    buildContentFuel (fuel + 1) (line :: rest)
      = [PostElement.text []] :: buildContentFuel fuel rest := by
  simp only [buildContentFuel]
  rw [if_neg (by simp [hnf])]
  rw [hhm]
  show (if trimSpace line = [] then [PostElement.text []] :: buildContentFuel fuel rest
        else (if 0 < (parseInlineElements line).length then [parseInlineElements line] else [])
          ++ buildContentFuel fuel rest) = _
  rw [if_pos hb]

theorem buildContentFuel_normal_step (fuel : Nat) (line : List Char) (rest : List (List Char))
    (hnf : isFence line = false) (hhm : headingMatch line = none) (hb : trimSpace line ≠ []) :
    buildContentFuel (fuel + 1) (line :: rest)
      = (if 0 < (parseInlineElements line).length then [parseInlineElements line] else [])
          ++ buildContentFuel fuel rest := by
  simp only [buildContentFuel]
  rw [if_neg (by simp [hnf])]
  rw [hhm]
  show (if trimSpace line = [] then [PostElement.text []] :: buildContentFuel fuel rest
        else (if 0 < (parseInlineElements line).length then [parseInlineElements line] else [])
          ++ buildContentFuel fuel rest) = _
  rw [if_neg hb]

/-- C1: for every input line, the inline tokenizer selects, among the five
candidate patterns (link, inline code, bold with doubled asterisks, bold with
doubled underscores, strikethrough, in that evaluation order as listed by
`candidates`), the match starting at the smallest offset in the remaining
text, breaking ties at equal offsets in favour of the earliest-evaluated
pattern; and the input "See [docs](http://x) and **bold**" tokenizes, in
order, to PlainText "See ", Link "docs"/"http://x", PlainText " and ", and a
bold StyledText "bold". -/
theorem inline_competition_earliest_then_priority :
    (∀ (r : List Char) (m : MatchData), findEarliest r = some m →
      ∃ i, i < 5 ∧ (candidates r).getD i none = some m
        ∧ (∀ j x, (candidates r).getD j none = some x → m.start ≤ x.start)
        ∧ (∀ j x, j < i → (candidates r).getD j none = some x → m.start < x.start))
    ∧ parseInlineElements ("See [docs](http://x) and **bold**".toList)
      = [PostElement.text ("See ".toList),
         PostElement.link ("docs".toList) ("http://x".toList),
         PostElement.text (" and ".toList),
         PostElement.styledText ("bold".toList) ["bold"]] := by
  constructor
  · intro r m h
    rcases pickEarliest_spec (candidates r) none m h with ⟨h0, _⟩ | ⟨i, hilen, hi, _, hstrict, hall⟩
    · cases h0
    · exact ⟨i, hilen, hi, hall, hstrict⟩
  · rfl

/-- Witness for C1: on the input "**b**" the competition selects the bold
match spanning offsets 0 to 5, and it is minimal among all candidates. -/
theorem inline_competition_earliest_then_priority_witness :
    ∃ i, i < 5 ∧ (candidates ("**b**".toList)).getD i none
        = some ⟨0, 5, "bold", [['b']]⟩
      ∧ (∀ j x, (candidates ("**b**".toList)).getD j none = some x →
          (⟨0, 5, "bold", [['b']]⟩ : MatchData).start ≤ x.start)
      ∧ (∀ j x, j < i → (candidates ("**b**".toList)).getD j none = some x →
          (⟨0, 5, "bold", [['b']]⟩ : MatchData).start < x.start) :=
  inline_competition_earliest_then_priority.1 ("**b**".toList)
    ⟨0, 5, "bold", [['b']]⟩ (by decide)

/-- C2 counterexample: on the concrete input "x" the locale object produced
by `markdownToFeishuPost` has no `title` field at all (its only field is
`content`), refuting the claim that an empty `title` field is always
present. -/
theorem post_title_field_counterexample : ¬ titleFieldPresent ("x".toList) := by
  rintro ⟨fields, heq, hmem⟩
  have h0 : markdownToFeishuPost ("x".toList)
      = Json.obj [("zh_cn".toList,
          Json.obj [("content".toList,
            Json.arr [Json.arr [elementToJson (PostElement.text ("x".toList))]])])] := rfl
  rw [h0] at heq
  injection heq with h1
  injection h1 with h2 h3
  injection h2 with h4 h5
  injection h5 with h6
  subst h6
  rcases List.mem_singleton.mp hmem with h7
  injection h7 with h8 h9
  exact absurd h8 (by decide)

/-- C2 (amended): for every input, the post value built by
`markdownToFeishuPost` is a root object whose single key `zh_cn` maps to an
object whose single field is `content`, holding the document as an array of
arrays of run objects — no `title` field is emitted — and every run object
carries a `tag` discriminator field. -/
theorem markdownToFeishuPost_shape :
    ∀ text : List Char,
      markdownToFeishuPost text
        = Json.obj [("zh_cn".toList,
            Json.obj [("content".toList,
              Json.arr ((buildContent (splitLines text)).map
                (fun l => Json.arr (l.map elementToJson))))])]
      ∧ ∀ e : PostElement, ∃ fields, elementToJson e = Json.obj fields
          ∧ ∃ v, ("tag".toList, Json.str v) ∈ fields := by
  intro text
  constructor
  · rfl
  · intro e
    cases e with
    | text s => exact ⟨_, rfl, "text".toList, by simp⟩
    | styledText s sty => exact ⟨_, rfl, "text".toList, by simp⟩
    | link s h => exact ⟨_, rfl, "a".toList, by simp⟩

/-- C3 counterexample: the input consisting of the single line of three
backticks (an empty fenced block) has no blank source line, yet its document
contains a StyledText run with empty text. -/
theorem empty_fence_empty_run_counterexample :
    (∃ l, l ∈ buildContent (splitLines ("```".toList))
        ∧ PostElement.styledText [] ["code_block"] ∈ l)
    ∧ ∀ l ∈ splitLines ("```".toList), trimSpace l ≠ [] := by
  constructor
  · exact ⟨[PostElement.styledText [] ["code_block"]], by decide, by decide⟩
  · decide

/-- C3 (amended): in every document produced by the converter, a Link run's
text is never empty, and a PlainText or StyledText run has empty text only
when its whole line is the blank-source-line run or the run of a fenced code
block whose content is empty. -/
theorem run_text_empty_only_blank_or_empty_fence :
    ∀ (text : List Char) (l : List PostElement) (e : PostElement),
      l ∈ buildContent (splitLines text) → e ∈ l →
      (∀ t u, e = PostElement.link t u → t ≠ [])
      ∧ (∀ s, (e = PostElement.text s ∨ ∃ sty, e = PostElement.styledText s sty) → s = [] →
          l = [PostElement.text []] ∨ l = [PostElement.styledText [] ["code_block"]]) := by
  intro text l e hl he
  have hOK := buildContentFuel_lineOK _ _ l hl
  rcases hOK with h1 | ⟨s0, h1⟩ | h1
  · subst h1
    rcases List.mem_singleton.mp he with rfl
    exact ⟨fun t u ht => by simp at ht, fun s hs hse => Or.inl rfl⟩
  · subst h1
    rcases List.mem_singleton.mp he with rfl
    constructor
    · intro t u ht
      simp at ht
    · intro s hs hse
      rcases hs with hs | ⟨sty, hs⟩
      · simp at hs
      · injection hs with hs1 hs2
        right
        rw [hs1, hse]
  · constructor
    · intro t u ht
      have h2 := h1 e he
      rw [ht] at h2
      exact h2
    · intro s hs hse
      exfalso
      have h2 := h1 e he
      rcases hs with hs | ⟨sty, hs⟩
      · rw [hs] at h2
        exact h2 hse
      · rw [hs] at h2
        exact h2.1 hse

/-- Witness for C3 (amended): on the line "[d](h)" the document consists of
one link run, whose text is nonempty. -/
theorem run_text_empty_only_blank_or_empty_fence_witness :
    (∀ t u, PostElement.link ("d".toList) ("h".toList) = PostElement.link t u → t ≠ [])
    ∧ (∀ s, (PostElement.link ("d".toList) ("h".toList) = PostElement.text s
          ∨ ∃ sty, PostElement.link ("d".toList) ("h".toList) = PostElement.styledText s sty)
        → s = [] →
          [PostElement.link ("d".toList) ("h".toList)] = [PostElement.text []]
          ∨ [PostElement.link ("d".toList) ("h".toList)]
              = [PostElement.styledText [] ["code_block"]]) :=
  run_text_empty_only_blank_or_empty_fence ("[d](h)".toList)
    [PostElement.link ("d".toList) ("h".toList)]
    (PostElement.link ("d".toList) ("h".toList)) (by decide) (by decide)

/-- C4: when the block splitter reaches a fence line after which no further
fence line occurs, it emits exactly one code-styled line containing all
remaining lines joined by newline (and, being a total function, raises no
error); in particular the unterminated input of a fence line followed by
lines A and B yields exactly one code-styled run with text "A\nB". -/
theorem unterminated_fence_single_code_block :
    (∀ (line : List Char) (rest : List (List Char)),
        isFence line = true → (∀ l ∈ rest, isFence l = false) →
        buildContent (line :: rest)
          = [[PostElement.styledText (joinNL rest) ["code_block"]]])
    ∧ buildContent (splitLines ("```\nA\nB".toList))
        = [[PostElement.styledText ("A\nB".toList) ["code_block"]]] := by
  constructor
  · intro line rest hf hall
    show buildContentFuel (rest.length + 1 + 1) (line :: rest) = _
    rw [buildContentFuel_fence_step (rest.length + 1) line rest hf]
    have htw : rest.takeWhile (fun l => !(isFence l)) = rest :=
      takeWhile_all _ rest (fun a ha => by rw [hall a ha]; rfl)
    have hdw : rest.dropWhile (fun l => !(isFence l)) = [] :=
      dropWhile_all _ rest (fun a ha => by rw [hall a ha]; rfl)
    rw [htw, hdw]
    simp [buildContentFuel_nil]
  · rfl

/-- Witness for C4: a fence line followed by the single line "A". -/
theorem unterminated_fence_single_code_block_witness :
    buildContent (("```".toList) :: ["A".toList])
      = [[PostElement.styledText (joinNL ["A".toList]) ["code_block"]]] :=
  unterminated_fence_single_code_block.1 ("```".toList) ["A".toList] (by decide) (by decide)

/-- C5: a source line matched by the heading pattern (one to six leading
hashes, required whitespace, nonempty remainder) becomes exactly one line
with one bold-styled run carrying the remainder, while a line with seven
hashes is not a heading and falls through to normal-line tokenization. -/
theorem heading_line_single_bold_run :
    (∀ (line r : List Char) (ls : List (List Char)),
        headingMatch line = some r →
        buildContent (line :: ls) = [PostElement.styledText r ["bold"]] :: buildContent ls)
    ∧ headingMatch ("## Title".toList) = some ("Title".toList)
    ∧ buildContent ["## Title".toList]
        = [[PostElement.styledText ("Title".toList) ["bold"]]]
    ∧ headingMatch ("####### Title".toList) = none
    ∧ buildContent ["####### Title".toList] = [parseInlineElements ("####### Title".toList)]
    ∧ parseInlineElements ("####### Title".toList)
        = [PostElement.text ("####### Title".toList)] := by
  refine ⟨?_, by decide, by decide, by decide, by decide, by decide⟩
  intro line r ls hhm
  have hnf : isFence line = false := headingMatch_not_fence line r hhm
  show buildContentFuel (ls.length + 1 + 1) (line :: ls) = _
  rw [buildContentFuel_heading_step (ls.length + 1) line r ls hhm hnf]
  rfl

/-- Witness for C5: the heading "## T" in front of an empty tail of lines. -/
theorem heading_line_single_bold_run_witness :
    buildContent (("## T".toList) :: ([] : List (List Char)))
      = [PostElement.styledText ("T".toList) ["bold"]] :: buildContent [] :=
  heading_line_single_bold_run.1 ("## T".toList) ("T".toList) [] (by decide)

/-- C6: `buildFeishuContent` returns the post payload whenever the
downstream encoder succeeds on the post value; it returns the plain-text
fallback exactly when the encoder fails on the post value, and the fallback
payload is the encoding of an object whose `text` field is byte-identical to
the original input; an error escapes only if the encoder also fails on the
fallback value.  Parsing itself is a total function and never fails. -/
theorem buildFeishuContent_fallback_only_on_encode_failure :
    ∀ (marshal : Json → Option (List Char)) (content : List Char),
      (∀ p, marshal (markdownToFeishuPost content) = some p →
          buildFeishuContent marshal content = some (msgTypePost, p))
      ∧ (∀ p, buildFeishuContent marshal content = some (msgTypeText, p) →
          marshal (markdownToFeishuPost content) = none
          ∧ marshal (textFallbackJson content) = some p)
      ∧ (buildFeishuContent marshal content = none →
          marshal (markdownToFeishuPost content) = none
          ∧ marshal (textFallbackJson content) = none) := by
  intro marshal content
  refine ⟨?_, ?_, ?_⟩
  · intro p hp
    show (match marshal (markdownToFeishuPost content) with
      | some postPayload => some (msgTypePost, postPayload)
      | none =>
        match marshal (textFallbackJson content) with
        | some payload => some (msgTypeText, payload)
        | none => none) = some (msgTypePost, p)
    rw [hp]
  · intro p hp
    simp only [buildFeishuContent] at hp
    cases h1 : marshal (markdownToFeishuPost content) with
    | some q =>
      rw [h1] at hp
      injection hp with hp
      injection hp with hp1 hp2
      exact absurd hp1 (by decide)
    | none =>
      rw [h1] at hp
      cases h2 : marshal (textFallbackJson content) with
      | some q =>
        rw [h2] at hp
        injection hp with hp
        injection hp with hp1 hp2
        subst hp2
        exact ⟨rfl, rfl⟩
      | none =>
        rw [h2] at hp
        exact absurd hp (by simp)
  · intro hp
    simp only [buildFeishuContent] at hp
    cases h1 : marshal (markdownToFeishuPost content) with
    | some q =>
      rw [h1] at hp
      exact absurd hp (by simp)
    | none =>
      rw [h1] at hp
      cases h2 : marshal (textFallbackJson content) with
      | some q =>
        rw [h2] at hp
        exact absurd hp (by simp)
      | none => exact ⟨rfl, rfl⟩

/-- Witness for C6: with the probe encoder, which fails on the post value of
"x" and succeeds on the fallback value, the fallback path is taken and its
`text` field is the original input. -/
theorem buildFeishuContent_fallback_witness :
    marshalProbe (markdownToFeishuPost ("x".toList)) = none
    ∧ marshalProbe (textFallbackJson ("x".toList)) = some ("x".toList) :=
  (buildFeishuContent_fallback_only_on_encode_failure marshalProbe ("x".toList)).2.1
    ("x".toList) (by decide)

/-- C7: no run in the converter's output ever carries the italic style; the
single-asterisk italic pattern of the source is never part of the
tokenizer's competition, so the only styles ever emitted are code_block,
bold and lineThrough. -/
theorem no_run_carries_italic_style :
    ∀ (text : List Char) (l : List PostElement) (e : PostElement) (s : List Char)
      (sty : List String),
      l ∈ buildContent (splitLines text) → e ∈ l → e = PostElement.styledText s sty →
      "italic" ∉ sty := by
  intro text l e s sty hl he heq
  have hOK := buildContentFuel_lineOK _ _ l hl
  rcases hOK with h1 | ⟨s0, h1⟩ | h1
  · subst h1
    rcases List.mem_singleton.mp he with rfl
    simp at heq
  · subst h1
    rcases List.mem_singleton.mp he with rfl
    injection heq with hs1 hs2
    rw [← hs2]
    decide
  · have h2 := h1 e he
    rw [heq] at h2
    rcases h2.2 with h | h | h <;> subst h <;> decide

/-- Witness for C7: the bold run produced from "**b**" does not carry the
italic style. -/
theorem no_run_carries_italic_style_witness : "italic" ∉ (["bold"] : List String) :=
  no_run_carries_italic_style ("**b**".toList)
    [PostElement.styledText ("b".toList) ["bold"]]
    (PostElement.styledText ("b".toList) ["bold"]) ("b".toList) ["bold"]
    (by decide) (by decide) rfl

/-- C8: the inline tokenizer's preprocessing trims surrounding whitespace;
if the trimmed line starts with "- " or "* " it replaces exactly that
two-character prefix with a bullet glyph and a space; any other trimmed
line — in particular one starting with a digit followed by a dot — is left
completely unmodified. -/
theorem preprocessing_trims_and_normalizes_bullets :
    (∀ line : List Char,
        ("- ".toList.isPrefixOf (trimSpace line)
          || "* ".toList.isPrefixOf (trimSpace line)) = true →
        preprocessLine line = '•' :: ' ' :: (trimSpace line).drop 2)
    ∧ (∀ line : List Char,
        ("- ".toList.isPrefixOf (trimSpace line)
          || "* ".toList.isPrefixOf (trimSpace line)) = false →
        preprocessLine line = trimSpace line)
    ∧ (∀ (line : List Char) (d : Char) (rest : List Char),
        trimSpace line = d :: '.' :: rest → '0' ≤ d → d ≤ '9' →
        preprocessLine line = trimSpace line) := by
  refine ⟨?_, ?_, ?_⟩
  · intro line h
    simp only [preprocessLine]
    rw [if_pos h]
  · intro line h
    simp only [preprocessLine]
    rw [if_neg (fun hc => by rw [h] at hc; cases hc)]
  · intro line d rest htrim h0 h9
    simp only [preprocessLine]
    have hm1 : "- ".toList = ['-', ' '] := rfl
    have hm2 : "* ".toList = ['*', ' '] := rfl
    rw [hm1, hm2, htrim]
    have hsp : ((' ' : Char) == '.') = false := by decide
    rw [if_neg (by simp [List.isPrefixOf, hsp])]

/-- Witness for C8: "- x" gets the bullet normalization; "1. x" is left
unmodified. -/
theorem preprocessing_trims_and_normalizes_bullets_witness :
    preprocessLine ("- x".toList) = '•' :: ' ' :: (trimSpace ("- x".toList)).drop 2
    ∧ preprocessLine ("1. x".toList) = trimSpace ("1. x".toList) :=
  ⟨preprocessing_trims_and_normalizes_bullets.1 ("- x".toList) (by decide),
   preprocessing_trims_and_normalizes_bullets.2.2 ("1. x".toList) '1' (" x".toList)
     (by decide) (by decide) (by decide)⟩

/-- C9: the tokenizer's scan loop terminates on every input line: every
selected match spans at least three characters within the remaining text, so
the remaining suffix strictly shrinks each iteration; consequently the loop
is fuel-independent once the fuel exceeds the line length, and
`parseInlineElements` equals the loop at any sufficient fuel. -/
theorem tokenizer_loop_terminates :
    (∀ (r : List Char) (m : MatchData), findEarliest r = some m →
      m.start + 3 ≤ m.stop ∧ m.stop ≤ r.length ∧ (r.drop m.stop).length < r.length)
    ∧ (∀ (r : List Char) (f1 f2 : Nat), r.length < f1 → r.length < f2 →
        parseLoopFuel f1 r = parseLoopFuel f2 r)
    ∧ (∀ (line : List Char) (f : Nat), (preprocessLine line).length < f →
        parseInlineElements line = parseLoopFuel f (preprocessLine line)) := by
  refine ⟨?_, ?_, ?_⟩
  · intro r m h
    have hm := findEarliest_sound r m h
    have hd : (r.drop m.stop).length = r.length - m.stop := List.length_drop _ _
    exact ⟨hm.1, hm.2.1, by omega⟩
  · intro r f1 f2 h1 h2
    exact parseLoopFuel_stable r.length r (le_refl _) f1 f2 h1 h2
  · intro line f hf
    exact parseLoopFuel_stable (preprocessLine line).length (preprocessLine line) (le_refl _)
      ((preprocessLine line).length + 1) f (by omega) hf

/-- Witness for C9: the inline-code match on "`c`" spans offsets 0 to 3 and
strictly shrinks the suffix; "ab" parses identically at fuel 7. -/
theorem tokenizer_loop_terminates_witness :
    ((⟨0, 3, "code", [['c']]⟩ : MatchData).start + 3 ≤ (⟨0, 3, "code", [['c']]⟩ : MatchData).stop
      ∧ (⟨0, 3, "code", [['c']]⟩ : MatchData).stop ≤ ("`c`".toList).length
      ∧ (("`c`".toList).drop (⟨0, 3, "code", [['c']]⟩ : MatchData).stop).length
          < ("`c`".toList).length)
    ∧ parseInlineElements ("ab".toList) = parseLoopFuel 7 (preprocessLine ("ab".toList)) :=
  ⟨tokenizer_loop_terminates.1 ("`c`".toList) ⟨0, 3, "code", [['c']]⟩ (by decide),
   tokenizer_loop_terminates.2.2 ("ab".toList) 7 (by decide)⟩

/-- C10: every source line that reaches the normal-line branch (nonempty
after trimming, not a fence, not a heading) tokenizes to at least one run,
so the guard omitting a zero-run line never fires and the line contributes
exactly one output line. -/
theorem normal_line_always_emitted :
    ∀ line : List Char, trimSpace line ≠ [] →
      parseInlineElements line ≠ []
      ∧ (isFence line = false → headingMatch line = none →
          ∀ ls : List (List Char),
            buildContent (line :: ls) = parseInlineElements line :: buildContent ls) := by
  intro line htrim
  have hpp : preprocessLine line ≠ [] := by
    simp only [preprocessLine]
    split
    · simp
    · exact htrim
  have hne : parseInlineElements line ≠ [] := by
    show parseLoopFuel ((preprocessLine line).length + 1) (preprocessLine line) ≠ []
    exact parseLoopFuel_cons_ne_nil _ _ hpp
  refine ⟨hne, ?_⟩
  intro hnf hhm ls
  show buildContentFuel (ls.length + 1 + 1) (line :: ls) = _
  rw [buildContentFuel_normal_step (ls.length + 1) line ls hnf hhm htrim]
  rw [if_pos (List.length_pos.mpr hne)]
  rfl

/-- Witness for C10: the line "hi" in front of an empty tail of lines. -/
theorem normal_line_always_emitted_witness :
    parseInlineElements ("hi".toList) ≠ []
    ∧ buildContent (("hi".toList) :: ([] : List (List Char)))
        = parseInlineElements ("hi".toList) :: buildContent [] :=
  ⟨(normal_line_always_emitted ("hi".toList) (by decide)).1,
   (normal_line_always_emitted ("hi".toList) (by decide)).2 (by decide) (by decide) []⟩
